import Mathlib

/-!
# Verification of the QFS retrieval engine specification

A shallow embedding of the qfs repository's core pure algorithms:
docid normalization, path/line parsing, embedding serialization,
FTS query sanitization, BM25 score normalization, reciprocal rank
fusion, word-window chunking, the store's BM25 SQL query, and the
document/FTS synchronization state machine.

Strings are modelled as `List Char` (Rust `&str` viewed as a character
sequence), rational numbers stand in for `f64` score arithmetic, and
`f32` values are modelled by their 32-bit patterns (as `Nat < 2^32`)
where only serialization, never float arithmetic, is at stake.
-/

namespace QFS

/-- Rust `char::is_whitespace` (the Unicode White_Space property).
This is the complete set of Unicode white-space code points. -/
def rustIsWhitespace (c : Char) : Bool :=
  let n := c.toNat
  (0x9 ≤ n && n ≤ 0xD) || n == 0x20 || n == 0x85 || n == 0xA0 || n == 0x1680 ||
  (0x2000 ≤ n && n ≤ 0x200A) || n == 0x2028 || n == 0x2029 ||
  n == 0x202F || n == 0x205F || n == 0x3000

/-- Rust `char::is_alphanumeric` (Unicode Alphabetic or Nd/Nl/No),
modelled exactly on code points below `0x100` (ASCII and Latin-1
Supplement); code points at `0x100` and above are treated as
non-alphanumeric.  All claims are settled on inputs inside the
modelled range. -/
def rustIsAlphanumeric (c : Char) : Bool :=
  let n := c.toNat
  (0x30 ≤ n && n ≤ 0x39) || (0x41 ≤ n && n ≤ 0x5A) || (0x61 ≤ n && n ≤ 0x7A) ||
  n == 0xAA || n == 0xB2 || n == 0xB3 || n == 0xB5 || n == 0xB9 || n == 0xBA ||
  (0xBC ≤ n && n ≤ 0xBE) || (0xC0 ≤ n && n ≤ 0xD6) ||
  (0xD8 ≤ n && n ≤ 0xF6) || (0xF8 ≤ n && n ≤ 0xFF)

/-- Rust `str::trim`: remove whitespace from both ends. -/
def trimChars (cs : List Char) : List Char :=
  ((cs.dropWhile rustIsWhitespace).reverse.dropWhile rustIsWhitespace).reverse

/-!
## Docid normalization (`src/qfs/src/store/mod.rs`, `normalize_docid`)
-/

/-- The quote-stripping step of `normalize_docid`: when the trimmed
input starts and ends with the same quote character, Rust slices
`normalized[1..normalized.len() - 1]`.  On the one-character strings
`"` and `'` both tests succeed and the slice `1..0` panics; the panic
is modelled as `none`. -/
def stripQuotes (t : List Char) : Option (List Char) :=
  if (t.head? == some '"' && t.getLast? == some '"')
      || (t.head? == some '\'' && t.getLast? == some '\'') then
    if t.length == 1 then none else some ((t.drop 1).dropLast)
  else
    some t

/-- The final step of `normalize_docid`: strip one leading `#`. -/
def stripHash (t : List Char) : List Char :=
  if t.head? == some '#' then t.drop 1 else t

/-- `normalize_docid`: trim, strip one pair of surrounding matching
quotes, strip a single leading `#`.  `none` models the Rust panic on
the inputs `"` and `'`. -/
def normalize_docid (cs : List Char) : Option (List Char) :=
  (stripQuotes (trimChars cs)).map stripHash

/-- The first character (if any) is not whitespace. -/
def noLeadingWS (cs : List Char) : Bool :=
  cs.head?.all (fun c => !rustIsWhitespace c)

/-- The last character (if any) is not whitespace. -/
def noTrailingWS (cs : List Char) : Bool :=
  cs.getLast?.all (fun c => !rustIsWhitespace c)

theorem noLeadingWS_head {cs : List Char} (h : noLeadingWS cs = true) :
    ∀ c, cs.head? = some c → rustIsWhitespace c = false := by
  intro c hc
  unfold noLeadingWS at h
  rw [hc] at h
  simpa using h

theorem noTrailingWS_getLast {cs : List Char} (h : noTrailingWS cs = true) :
    ∀ c, cs.getLast? = some c → rustIsWhitespace c = false := by
  intro c hc
  unfold noTrailingWS at h
  rw [hc] at h
  simpa using h

theorem dropWhile_eq_self_of_head {p : Char → Bool} {cs : List Char}
    (h : ∀ c, cs.head? = some c → p c = false) : cs.dropWhile p = cs := by
  cases cs with
  | nil => rfl
  | cons a l =>
    rw [List.dropWhile_cons, h a rfl]
    simp

theorem trimChars_eq_self {cs : List Char} (h1 : noLeadingWS cs = true)
    (h2 : noTrailingWS cs = true) : trimChars cs = cs := by
  unfold trimChars
  rw [dropWhile_eq_self_of_head (noLeadingWS_head h1)]
  rw [dropWhile_eq_self_of_head (p := rustIsWhitespace)]
  · exact cs.reverse_reverse
  · intro c hc
    rw [List.head?_reverse] at hc
    exact noTrailingWS_getLast h2 c hc

theorem c7_cex_compute :
    normalize_docid ('#' :: "#a".toList) = some "#a".toList ∧
    normalize_docid "#a".toList = some "a".toList := by
  constructor <;> rfl

/-- C7: the claimed docid law fails as stated: for `x = "#a"`,
`normalize_docid ("#" + x)` is `"#a"` while `normalize_docid x` is
`"a"` — the code strips only a single leading `#` after trimming and
unquoting, so the laws only hold for already-normalized-shaped `x`. -/
theorem c7_counterexample :
    ¬ (∀ x : List Char,
        normalize_docid ('#' :: x) = normalize_docid x ∧
        normalize_docid x = normalize_docid ('"' :: (x ++ ['"']))) := by
  intro h
  have hx := (h "#a".toList).1
  rw [c7_cex_compute.1, c7_cex_compute.2] at hx
  simp at hx

theorem noLeadingWS_cons {c : Char} (x : List Char) (h : rustIsWhitespace c = false) :
    noLeadingWS (c :: x) = true := by
  unfold noLeadingWS
  simp [h]

theorem noTrailingWS_cons {c : Char} {x : List Char}
    (hc : rustIsWhitespace c = false) (hx : noTrailingWS x = true) :
    noTrailingWS (c :: x) = true := by
  unfold noTrailingWS at hx ⊢
  cases x with
  | nil => simp [hc]
  | cons b l => rw [List.getLast?_cons_cons]; exact hx

theorem noTrailingWS_append_singleton (x : List Char) {c : Char}
    (hc : rustIsWhitespace c = false) : noTrailingWS (x ++ [c]) = true := by
  unfold noTrailingWS
  rw [List.getLast?_concat]
  simp [hc]

/-- C7 (amended): the docid normalization laws hold for every `x`
that is already trimmed (no leading or trailing whitespace), does not
itself start with `#`, and is not wrapped in matching quotes: then
`normalize_docid ("#" + x)`, `normalize_docid x` and
`normalize_docid ("\"" + x + "\"")` all equal `x`. -/
theorem c7_amended (x : List Char)
    (h1 : noLeadingWS x = true) (h2 : noTrailingWS x = true)
    (h3 : x.head? ≠ some '#')
    (h4 : ¬ ((x.head? = some '"' ∧ x.getLast? = some '"')
        ∨ (x.head? = some '\'' ∧ x.getLast? = some '\''))) :
    normalize_docid ('#' :: x) = some x ∧
    normalize_docid x = some x ∧
    normalize_docid ('"' :: (x ++ ['"'])) = some x := by
  have hhash : rustIsWhitespace '#' = false := by decide
  have hquote : rustIsWhitespace '"' = false := by decide
  have hstrip : stripHash x = x := by
    unfold stripHash
    rw [if_neg]
    simpa using h3
  refine ⟨?_, ?_, ?_⟩
  · -- "#" ++ x : no quote wrap (starts with '#'), strip the '#'
    unfold normalize_docid
    rw [trimChars_eq_self (noLeadingWS_cons x hhash) (noTrailingWS_cons hhash h2)]
    have hq : stripQuotes ('#' :: x) = some ('#' :: x) := by
      unfold stripQuotes
      simp
    rw [hq, Option.map_some']
    unfold stripHash
    simp
  · -- x itself : no quote wrap, no leading '#'
    unfold normalize_docid
    rw [trimChars_eq_self h1 h2]
    have hq : stripQuotes x = some x := by
      unfold stripQuotes
      rw [if_neg]
      simp only [Bool.or_eq_true, Bool.and_eq_true, beq_iff_eq]
      intro hc
      apply h4
      rcases hc with ⟨ha, hb⟩ | ⟨ha, hb⟩
      · exact Or.inl ⟨ha, hb⟩
      · exact Or.inr ⟨ha, hb⟩
    rw [hq, Option.map_some', hstrip]
  · -- "\"" ++ x ++ "\"" : quote wrap stripped, then no leading '#'
    unfold normalize_docid
    rw [trimChars_eq_self (noLeadingWS_cons _ hquote)
      (noTrailingWS_cons hquote (noTrailingWS_append_singleton x hquote))]
    have hq : stripQuotes ('"' :: (x ++ ['"'])) = some x := by
      unfold stripQuotes
      rw [if_pos]
      · rw [if_neg]
        · simp
        · simp
      · have hlast : ('"' :: (x ++ ['"'])).getLast? = some '"' := by
          rw [← List.cons_append, List.getLast?_concat]
        simp [hlast]
    rw [hq, Option.map_some', hstrip]

/-- Witness for `c7_amended` at `x = "abc"`. -/
theorem c7_amended_witness :
    normalize_docid ('#' :: "abc".toList) = some "abc".toList ∧
    normalize_docid "abc".toList = some "abc".toList ∧
    normalize_docid ('"' :: ("abc".toList ++ ['"'])) = some "abc".toList :=
  c7_amended "abc".toList (by decide) (by decide) (by decide) (by decide)

/-!
## Path/line parsing (`src/qfs/src/lib.rs`, `parse_path_with_line`)
-/

/-- `str::rfind(':')` — index of the last `':'`, if any. -/
def rfindColon : List Char → Option Nat
  | [] => none
  | c :: cs =>
    match rfindColon cs with
    | some i => some (i + 1)
    | none => if c == ':' then some 0 else none

/-- Numeric value of a digit string (what `parse::<usize>` computes
when it succeeds). -/
def digitsToNat (cs : List Char) : Nat :=
  cs.foldl (fun a c => 10 * a + (c.toNat - 48)) 0

/-- `usize::MAX` on a 64-bit target; `suffix.parse::<usize>()` fails
exactly when the value of the digit string exceeds it. -/
def usizeMax : Nat := 2 ^ 64 - 1

/-- `parse_path_with_line`: strip a trailing `:digits` suffix into a
line number.  The suffix must be non-empty, all ASCII digits, and its
value must fit in `usize` (otherwise `parse` returns `Err` and the
whole input is returned with no line number). -/
def parse_path_with_line (cs : List Char) : List Char × Option Nat :=
  match rfindColon cs with
  | some i =>
    let suf := cs.drop (i + 1)
    if suf ≠ [] ∧ suf.all Char.isDigit = true ∧ digitsToNat suf ≤ usizeMax then
      (cs.take i, some (digitsToNat suf))
    else (cs, none)
  | none => (cs, none)

/-- The behavior claimed by the spec: strip exactly when the suffix
after the last colon is non-empty and all digits — with no condition
on the magnitude of the number. -/
def parsePathClaimSpec (cs : List Char) : List Char × Option Nat :=
  match rfindColon cs with
  | some i =>
    let suf := cs.drop (i + 1)
    if suf ≠ [] ∧ suf.all Char.isDigit = true then
      (cs.take i, some (digitsToNat suf))
    else (cs, none)
  | none => (cs, none)

/-- C9: the claim fails on suffixes whose numeric value overflows
`usize`: on `"a:99999999999999999999"` (20 digits, above `2^64`) the
code returns the whole input with `line = None`, while the claim
demands `("a", Some 99999999999999999999)`. -/
theorem c9_counterexample :
    ¬ (∀ cs : List Char, parse_path_with_line cs = parsePathClaimSpec cs) := by
  intro h
  have := h "a:99999999999999999999".toList
  revert this
  decide

theorem rfindColon_none_iff (cs : List Char) : rfindColon cs = none ↔ ':' ∉ cs := by
  induction cs with
  | nil => simp [rfindColon]
  | cons c l ih =>
    unfold rfindColon
    cases hrec : rfindColon l with
    | some j =>
      simp only [List.mem_cons]
      constructor
      · intro h; exact absurd h (by simp)
      · intro h
        exact absurd ((ih.2 (fun hm => h (Or.inr hm))).symm.trans hrec) (by simp)
    | none =>
      by_cases hc : c = ':'
      · simp [hc]
      · simp only [hc, List.mem_cons]
        have hl := ih.1 hrec
        constructor
        · intro _ hm
          rcases hm with hm | hm
          · exact hc hm.symm
          · exact hl hm
        · intro _
          simp [hc]

theorem rfindColon_last (pre suf : List Char) (h : ':' ∉ suf) :
    rfindColon (pre ++ ':' :: suf) = some pre.length := by
  induction pre with
  | nil =>
    simp only [List.nil_append]
    unfold rfindColon
    rw [(rfindColon_none_iff suf).2 h]
    simp
  | cons c l ih =>
    rw [List.cons_append]
    unfold rfindColon
    rw [ih]
    simp

theorem rfindColon_some {cs : List Char} {i : Nat} (h : rfindColon cs = some i) :
    i < cs.length ∧ cs.drop i = ':' :: cs.drop (i + 1) ∧ ':' ∉ cs.drop (i + 1) := by
  induction cs generalizing i with
  | nil => simp [rfindColon] at h
  | cons c l ih =>
    unfold rfindColon at h
    cases hrec : rfindColon l with
    | some j =>
      rw [hrec] at h
      simp only [Option.some.injEq] at h
      subst h
      obtain ⟨hj1, hj2, hj3⟩ := ih hrec
      exact ⟨by simpa using Nat.succ_lt_succ hj1, by simpa using hj2, by simpa using hj3⟩
    | none =>
      rw [hrec] at h
      by_cases hc : c = ':'
      · simp [hc] at h
        subst h
        refine ⟨by simp, by simp [hc], ?_⟩
        simpa using (rfindColon_none_iff l).1 hrec
      · simp [hc] at h

theorem parse_path_strip_pos (pre suf : List Char) (h1 : ':' ∉ suf) (h2 : suf ≠ [])
    (h3 : suf.all Char.isDigit = true) (h4 : digitsToNat suf ≤ usizeMax) :
    parse_path_with_line (pre ++ ':' :: suf) = (pre, some (digitsToNat suf)) := by
  unfold parse_path_with_line
  rw [rfindColon_last pre suf h1]
  have hdrop : (pre ++ ':' :: suf).drop (pre.length + 1) = suf := by
    have : pre ++ ':' :: suf = (pre ++ [':']) ++ suf := by simp
    rw [this]
    have hlen : (pre ++ [':']).length = pre.length + 1 := by simp
    rw [← hlen, List.drop_left]
  have htake : (pre ++ ':' :: suf).take pre.length = pre := List.take_left pre _
  simp only [hdrop, htake]
  rw [if_pos ⟨h2, h3, h4⟩]

theorem parse_path_keep_neg (cs : List Char)
    (h : ∀ pre suf, cs = pre ++ ':' :: suf → ':' ∉ suf →
      ¬(suf ≠ [] ∧ suf.all Char.isDigit = true ∧ digitsToNat suf ≤ usizeMax)) :
    parse_path_with_line cs = (cs, none) := by
  unfold parse_path_with_line
  cases hrc : rfindColon cs with
  | none => rfl
  | some i =>
    obtain ⟨hi, hdropi, hnotin⟩ := rfindColon_some hrc
    have hdecomp : cs = cs.take i ++ ':' :: cs.drop (i + 1) := by
      conv_lhs => rw [← List.take_append_drop i cs]
      rw [hdropi]
    have hcond := h (cs.take i) (cs.drop (i + 1)) hdecomp hnotin
    simp only []
    rw [if_neg hcond]

/-- C9 (amended): `parse_path_with_line` strips the trailing
`:digits` suffix exactly when the part after the last colon is
non-empty, all ASCII digits, *and its numeric value fits in `usize`*
(Rust's `parse::<usize>()` fails on overflow, preserving the whole
input); otherwise — including on overflow — it returns the whole
input with `line = None`.  In particular
`parse_path_with_line "a/b:10:30_x.md" = ("a/b:10:30_x.md", None)`. -/
theorem c9_amended :
    (∀ pre suf : List Char, ':' ∉ suf → suf ≠ [] → suf.all Char.isDigit = true →
      digitsToNat suf ≤ usizeMax →
      parse_path_with_line (pre ++ ':' :: suf) = (pre, some (digitsToNat suf)))
    ∧ (∀ cs : List Char,
      (∀ pre suf, cs = pre ++ ':' :: suf → ':' ∉ suf →
        ¬(suf ≠ [] ∧ suf.all Char.isDigit = true ∧ digitsToNat suf ≤ usizeMax)) →
      parse_path_with_line cs = (cs, none))
    ∧ parse_path_with_line "a/b:10:30_x.md".toList = ("a/b:10:30_x.md".toList, none) :=
  ⟨fun pre suf h1 h2 h3 h4 => parse_path_strip_pos pre suf h1 h2 h3 h4,
   fun cs h => parse_path_keep_neg cs h,
   by decide⟩

/-- Witness for `c9_amended` on `"docs/file.md:50"`. -/
theorem c9_amended_witness :
    parse_path_with_line ("docs/file.md".toList ++ ':' :: "50".toList)
      = ("docs/file.md".toList, some (digitsToNat "50".toList)) :=
  c9_amended.1 "docs/file.md".toList "50".toList (by decide) (by decide)
    (by decide) (by decide)

/-!
## Embedding serialization (`src/qfs-embed/src/lib.rs`)

An `f32` is modelled by its 32-bit pattern (a `Nat < 2^32`); the two
functions only move bit patterns (little-endian), never do float
arithmetic, so the model is exact — including the claim's "within f32
precision", which at the bit level is equality.
-/

/-- `f32::to_le_bytes`: the four little-endian bytes of a 32-bit
pattern. -/
def f32ToLeBytes (n : Nat) : List Nat :=
  [n % 256, n / 256 % 256, n / 65536 % 256, n / 16777216 % 256]

/-- `f32::from_le_bytes`. -/
def f32FromLeBytes (b0 b1 b2 b3 : Nat) : Nat :=
  b0 + 256 * b1 + 65536 * b2 + 16777216 * b3

/-- `embedding_to_bytes`: concatenate the little-endian bytes of each
vector element. -/
def embedding_to_bytes (v : List Nat) : List Nat :=
  v.flatMap f32ToLeBytes

/-- `bytes_to_embedding`: decode each exact 4-byte chunk
(`chunks_exact(4)` drops any trailing remainder). -/
def bytes_to_embedding : List Nat → List Nat
  | b0 :: b1 :: b2 :: b3 :: rest => f32FromLeBytes b0 b1 b2 b3 :: bytes_to_embedding rest
  | _ => []

theorem f32_roundtrip {n : Nat} (h : n < 2 ^ 32) :
    f32FromLeBytes (n % 256) (n / 256 % 256) (n / 65536 % 256) (n / 16777216 % 256) = n := by
  unfold f32FromLeBytes
  omega

/-- C8: serialization round-trip — for every vector of f32 values
(represented by their 32-bit patterns), decoding the encoding gives
back the vector exactly, and the encoding is the concatenation of the
4-byte little-endian encodings, so its length is `4 * dimension`. -/
theorem c8_embedding_roundtrip (v : List Nat) (h : ∀ x ∈ v, x < 2 ^ 32) :
    bytes_to_embedding (embedding_to_bytes v) = v ∧
    (embedding_to_bytes v).length = 4 * v.length := by
  induction v with
  | nil => exact ⟨rfl, rfl⟩
  | cons x v ih =>
    obtain ⟨ih1, ih2⟩ := ih (fun y hy => h y (List.mem_cons_of_mem x hy))
    have hx : x < 2 ^ 32 := h x (List.mem_cons_self x v)
    constructor
    · show bytes_to_embedding ((x :: v).flatMap f32ToLeBytes) = x :: v
      rw [List.flatMap_cons]
      show bytes_to_embedding (f32ToLeBytes x ++ v.flatMap f32ToLeBytes) = x :: v
      unfold f32ToLeBytes
      rw [List.cons_append, List.cons_append, List.cons_append, List.cons_append,
        List.nil_append]
      unfold bytes_to_embedding
      rw [f32_roundtrip hx]
      exact congrArg (x :: ·) ih1
    · show ((x :: v).flatMap f32ToLeBytes).length = 4 * (x :: v).length
      rw [List.flatMap_cons, List.length_append]
      show (f32ToLeBytes x).length + (embedding_to_bytes v).length = 4 * (x :: v).length
      rw [ih2]
      simp [f32ToLeBytes]
      ring

/-- Witness for `c8_embedding_roundtrip` at the bit patterns of
`[0.0, 1.0, -3.5]` (`0x00000000`, `0x3F800000`, `0xC0600000`) plus
the all-ones pattern. -/
theorem c8_embedding_roundtrip_witness :
    bytes_to_embedding (embedding_to_bytes [0, 1065353216, 3227516928, 4294967295])
      = [0, 1065353216, 3227516928, 4294967295] ∧
    (embedding_to_bytes [0, 1065353216, 3227516928, 4294967295]).length = 4 * 4 :=
  c8_embedding_roundtrip [0, 1065353216, 3227516928, 4294967295] (by decide)

/-!
## FTS query sanitization (`src/qfs/src/search/mod.rs`, `sanitize_fts_query`)
-/

/-- `str::split_whitespace`, with an accumulator for the current
word (kept reversed). -/
def splitWSAux : List Char → List Char → List (List Char)
  | [], acc => if acc.isEmpty then [] else [acc.reverse]
  | c :: cs, acc =>
    if rustIsWhitespace c then
      if acc.isEmpty then splitWSAux cs [] else acc.reverse :: splitWSAux cs []
    else splitWSAux cs (c :: acc)

/-- `str::split_whitespace`: maximal runs of non-whitespace. -/
def splitWhitespace (cs : List Char) : List (List Char) :=
  splitWSAux cs []

theorem splitWSAux_ne_nil (cs : List Char) (acc : List Char) :
    ∀ t ∈ splitWSAux cs acc, t ≠ [] := by
  induction cs generalizing acc with
  | nil =>
    intro t ht
    unfold splitWSAux at ht
    by_cases h : acc.isEmpty
    · simp [h] at ht
    · simp [h] at ht
      subst ht
      simpa [List.isEmpty_iff] using h
  | cons c cs ih =>
    intro t ht
    unfold splitWSAux at ht
    by_cases hws : rustIsWhitespace c
    · by_cases h : acc.isEmpty
      · rw [if_pos hws, if_pos h] at ht
        exact ih [] t ht
      · rw [if_pos hws, if_neg h] at ht
        rcases List.mem_cons.1 ht with h1 | h1
        · subst h1
          simpa [List.isEmpty_iff] using h
        · exact ih [] t h1
    · rw [if_neg hws] at ht
      exact ih (c :: acc) t ht

/-- The character filter in `sanitize_fts_query`:
`c.is_alphanumeric() || *c == '_' || *c == '-'`. -/
def cleanTerm (t : List Char) : List Char :=
  t.filter (fun c => rustIsAlphanumeric c || c == '_' || c == '-')

/-- Wrap a term for FTS5 prefix matching: `"term"*`. -/
def wrapTerm (t : List Char) : List Char :=
  '"' :: (t ++ ['"', '*'])

/-- `sanitize_fts_query`: trim, split on whitespace, filter each term
down to alphanumeric/`_`/`-` characters, wrap the non-empty cleaned
terms as quoted prefixes, join with `" AND "`. -/
def sanitize_fts_query (q : List Char) : List Char :=
  let query := trimChars q
  if query.isEmpty then [] else
  let terms := (splitWhitespace query).filter (fun t => !t.isEmpty)
  if terms.isEmpty then [] else
  let fts_terms := (terms.map (fun term =>
    let clean := cleanTerm term
    if clean.isEmpty then [] else wrapTerm clean)).filter (fun t => !t.isEmpty)
  if fts_terms.isEmpty then [] else
  List.intercalate " AND ".toList fts_terms

/-- The sanitization pipeline exactly as the claim words it: keep in
each token only characters from the ASCII class `[A-Za-z0-9_-]`. -/
def sanitizeClaimSpec (q : List Char) : List Char :=
  List.intercalate " AND ".toList
    ((((splitWhitespace (trimChars q)).map
        (fun t => t.filter (fun c => c.isAlpha || c.isDigit || c == '_' || c == '-'))).filter
      (fun t => !t.isEmpty)).map wrapTerm)

/-- The same pipeline with the character class the code actually
uses: Unicode alphanumeric (Rust `char::is_alphanumeric`) or `_` or
`-`. -/
def sanitizeAmendedSpec (q : List Char) : List Char :=
  List.intercalate " AND ".toList
    ((((splitWhitespace (trimChars q)).map cleanTerm).filter
      (fun t => !t.isEmpty)).map wrapTerm)

/-- C2: the claimed ASCII character class is wrong: the code keeps
every Unicode-alphanumeric character.  On the query `"é"` (U+00E9,
alphanumeric but outside `[A-Za-z0-9_-]`) the code produces
`"é"*` while the claimed pipeline produces the empty query. -/
theorem c2_counterexample :
    sanitize_fts_query ['é'] ≠ sanitizeClaimSpec ['é'] := by
  decide

theorem splitWhitespace_filter_ne_nil (x : List Char) :
    (splitWhitespace x).filter (fun t => !t.isEmpty) = splitWhitespace x := by
  apply List.filter_eq_self.2
  intro t ht
  have := splitWSAux_ne_nil x [] t ht
  simpa [List.isEmpty_iff] using this

theorem map_clean_filter_exchange (terms : List (List Char)) :
    (terms.map (fun term =>
      if (cleanTerm term).isEmpty then [] else wrapTerm (cleanTerm term))).filter
        (fun t => !t.isEmpty)
    = ((terms.map cleanTerm).filter (fun t => !t.isEmpty)).map wrapTerm := by
  induction terms with
  | nil => rfl
  | cons t ts ih =>
    rw [List.map_cons, List.map_cons]
    simp only [List.isEmpty_iff] at ih
    by_cases h : (cleanTerm t).isEmpty
    · rw [if_pos h]
      have h2 : cleanTerm t = [] := List.isEmpty_iff.1 h
      simp [List.filter_cons, h2, ih]
    · rw [if_neg h]
      have h2 : cleanTerm t ≠ [] := by simpa [List.isEmpty_iff] using h
      have h3 : wrapTerm (cleanTerm t) ≠ [] := by simp [wrapTerm]
      simp [List.filter_cons, h2, h3, ih]

/-- The rows the store hands back from the BM25 SQL query
(`SearchResultRow` in `src/qfs/src/store/mod.rs`). -/
structure SearchResultRow where
  id : Int
  collection : List Char
  path : List Char
  title : Option (List Char)
  hash : List Char
  file_type : List Char
  content_type : List Char
  size : Int
  bm25_score : ℚ
  snippet : Option (List Char)
deriving DecidableEq

/-- A searcher-level result, modelled by the claim-relevant fields:
the document id and the normalized relevance score.  The remaining
fields of the Rust `SearchResult` are metadata carried along
unchanged. -/
structure SearchResult where
  id : Int
  score : ℚ
deriving DecidableEq

/-- `normalize_bm25_score`: `1.0 / (1.0 + bm25_score.abs())`. -/
def normalize_bm25_score (bm25_score : ℚ) : ℚ :=
  1 / (1 + |bm25_score|)

/-- `Searcher::search_bm25`, with the store's SQL query abstracted as
`storeQuery`.  The boolean records whether the store was queried at
all; the early return on an empty sanitized query never touches the
store. -/
def searcher_search_bm25 (storeQuery : List Char → List SearchResultRow)
    (q : List Char) (min_score : ℚ) : List SearchResult × Bool :=
  let fts_query := sanitize_fts_query q
  if fts_query.isEmpty then ([], false)
  else
    let rows := storeQuery fts_query
    ((rows.map (fun row =>
        ({ id := row.id, score := normalize_bm25_score row.bm25_score } : SearchResult))).filter
      (fun r => decide (min_score ≤ r.score)), true)

/-- C2 (amended): `sanitize_fts_query` trims, splits on (Unicode)
whitespace, keeps in each token exactly the characters that are
Unicode-alphanumeric (Rust `char::is_alphanumeric`) or `_` or `-` —
not only the ASCII class the claim names — wraps each cleaned
non-empty token as `"token"*` and joins with `" AND "`; and whenever
the sanitized query is empty, BM25 search returns zero results
without invoking any store query. -/
theorem c2_amended :
    (∀ q : List Char, sanitize_fts_query q = sanitizeAmendedSpec q)
    ∧ (∀ (storeQuery : List Char → List SearchResultRow) (q : List Char) (ms : ℚ),
      sanitize_fts_query q = [] →
      searcher_search_bm25 storeQuery q ms = ([], false)) := by
  constructor
  · intro q
    simp only [sanitize_fts_query, sanitizeAmendedSpec]
    by_cases h1 : (trimChars q).isEmpty
    · rw [if_pos h1, List.isEmpty_iff.1 h1]
      rfl
    · rw [if_neg h1, splitWhitespace_filter_ne_nil]
      by_cases h2 : (splitWhitespace (trimChars q)).isEmpty
      · rw [if_pos h2, List.isEmpty_iff.1 h2]
        rfl
      · rw [if_neg h2, map_clean_filter_exchange]
        by_cases h3 : ((((splitWhitespace (trimChars q)).map cleanTerm).filter
            (fun t => !t.isEmpty)).map wrapTerm).isEmpty
        · rw [if_pos h3, List.isEmpty_iff.1 h3]
          rfl
        · rw [if_neg h3]
  · intro storeQuery q ms h
    simp only [searcher_search_bm25, h]
    rfl

/-- Witness for `c2_amended` on the all-symbols query `"@#$%"`. -/
theorem c2_amended_witness :
    sanitize_fts_query "@#$%".toList = sanitizeAmendedSpec "@#$%".toList ∧
    searcher_search_bm25 (fun _ => []) "@#$%".toList 0 = ([], false) :=
  ⟨c2_amended.1 "@#$%".toList, c2_amended.2 (fun _ => []) "@#$%".toList 0 (by decide)⟩

/-!
## Store BM25 search (`src/qfs/src/store/mod.rs`, `Store::search_bm25`)

The SQL query joins `documents_fts` rowids to `documents` and
`content`, keeps active matching rows, orders by the engine-computed
`bm25(documents_fts)` value ascending and applies `LIMIT`; the Rust
row loop then drops binary MIME types unless `include_binary`.  The
FTS engine itself (which rowids match and their bm25 values) is a
parameter; `ORDER BY` is modelled by a stable insertion sort and the
engine-generated snippet as `none`.
-/

/-- A row of the `documents` table (the fields `search_bm25` reads). -/
structure DocTableRow where
  id : Int
  collection : List Char
  path : List Char
  title : Option (List Char)
  hash : List Char
  file_type : List Char
  active : Bool
deriving DecidableEq

/-- A row of the `content` table (the fields `search_bm25` reads). -/
structure ContentTableRow where
  hash : List Char
  content_type : List Char
  size : Int
deriving DecidableEq

/-- The binary-MIME test in the row loop:
`application/octet`, `image/`, `audio/`, `video/`. -/
def isBinaryMime (ct : List Char) : Bool :=
  "application/octet".toList.isPrefixOf ct || "image/".toList.isPrefixOf ct ||
  "audio/".toList.isPrefixOf ct || "video/".toList.isPrefixOf ct

/-- The ascending-raw-score comparison used by `ORDER BY bm25_score`. -/
def byRawAsc (a b : SearchResultRow) : Prop :=
  a.bm25_score ≤ b.bm25_score

instance : DecidableRel byRawAsc :=
  fun a b => inferInstanceAs (Decidable (a.bm25_score ≤ b.bm25_score))

instance : IsTotal SearchResultRow byRawAsc := ⟨fun a b => le_total a.bm25_score b.bm25_score⟩

instance : IsTrans SearchResultRow byRawAsc := ⟨fun _ _ _ hab hbc => le_trans hab hbc⟩

/-- `Store::search_bm25`: join, filter on match/active/collection,
order by raw BM25 ascending, `LIMIT`, then drop binary rows in Rust
unless `include_binary`. -/
def store_search_bm25 (docs : List DocTableRow) (contents : List ContentTableRow)
    (ftsRowids : List Int) (ftsMatch : Int → Bool) (bm25 : Int → ℚ)
    (collection : Option (List Char)) (limit : Nat) (include_binary : Bool) :
    List SearchResultRow :=
  let joined := ftsRowids.flatMap (fun rid =>
    if ftsMatch rid then
      (docs.filter (fun d => d.id == rid && d.active
          && (match collection with | some c => d.collection == c | none => true))).flatMap
        (fun d => (contents.filter (fun c => c.hash == d.hash)).map
          (fun c => ({ id := d.id, collection := d.collection, path := d.path,
                       title := d.title, hash := d.hash, file_type := d.file_type,
                       content_type := c.content_type, size := c.size,
                       bm25_score := bm25 rid, snippet := none } : SearchResultRow)))
    else [])
  let limited := (joined.insertionSort byRawAsc).take limit
  limited.filter (fun row => include_binary || !isBinaryMime row.content_type)

/-- The number of active documents that match the query and have
non-binary content — what a caller would expect `limit` to be
compared against. -/
def activeNonBinaryMatches (docs : List DocTableRow) (contents : List ContentTableRow)
    (ftsMatch : Int → Bool) : Nat :=
  (docs.filter (fun d => d.active && ftsMatch d.id &&
    (contents.filter (fun c => c.hash == d.hash)).any
      (fun c => !isBinaryMime c.content_type))).length

/-- C6: BM25 score normalization and threshold — `normalize_bm25_score`
is `1/(1+|raw|)`, always in the half-open interval `(0, 1]`, and every
result the searcher returns has normalized score at least `min_score`
(everything strictly below it is dropped by the filter). -/
theorem c6_normalize_bounds_and_threshold :
    (∀ x : ℚ, normalize_bm25_score x = 1 / (1 + |x|) ∧
      0 < normalize_bm25_score x ∧ normalize_bm25_score x ≤ 1)
    ∧ (∀ (storeQuery : List Char → List SearchResultRow) (q : List Char) (ms : ℚ)
        (r : SearchResult), r ∈ (searcher_search_bm25 storeQuery q ms).1 → ms ≤ r.score) := by
  constructor
  · intro x
    refine ⟨rfl, ?_, ?_⟩
    · have hx : (0 : ℚ) < 1 + |x| := by positivity
      exact div_pos one_pos hx
    · rw [normalize_bm25_score, div_le_one (by positivity)]
      have := abs_nonneg x
      linarith
  · intro storeQuery q ms r hr
    simp only [searcher_search_bm25] at hr
    by_cases h : (sanitize_fts_query q).isEmpty
    · rw [if_pos h] at hr
      simp at hr
    · rw [if_neg h] at hr
      have := (List.mem_filter.1 hr).2
      exact of_decide_eq_true this

/-- Witness for `c6_normalize_bounds_and_threshold`: a concrete
single-row store and the query `"hello"` at `min_score = 0`. -/
theorem c6_normalize_witness :
    (0 : ℚ) ≤ (⟨7, normalize_bm25_score (-3)⟩ : SearchResult).score :=
  c6_normalize_bounds_and_threshold.2
    (fun _ => [⟨7, "c".toList, "p".toList, none, "h".toList, "md".toList,
      "text/plain".toList, 5, -3, none⟩])
    "hello".toList 0 ⟨7, normalize_bm25_score (-3)⟩ (by
      have hq : sanitize_fts_query ['h', 'e', 'l', 'l', 'o'] ≠ [] := by decide
      have hs : (0 : ℚ) ≤ normalize_bm25_score (-3) := by
        rw [normalize_bm25_score]
        positivity
      simp [searcher_search_bm25, hq, hs])

/-- C3: the claimed order equivalence is inverted.  For the negative
raw scores `a = -2 < b = -1`, `normalize_bm25_score a = 1/3` is
*strictly less than* `normalize_bm25_score b = 1/2`, refuting
"raw ascending is equivalent to normalized descending". -/
theorem c3_counterexample :
    ¬ (∀ a b : ℚ, a < 0 → b < 0 → a < b →
      normalize_bm25_score b ≤ normalize_bm25_score a) := by
  intro h
  have := h (-2) (-1) (by norm_num) (by norm_num) (by norm_num)
  rw [normalize_bm25_score, normalize_bm25_score] at this
  norm_num at this

/-- C3 (amended): results come back from the store ordered by raw
BM25 ascending, and on the negative raw scores the FTS engine
produces this is equivalent to normalized score *ascending* (not
descending): `normalize_bm25_score` is strictly monotone increasing
on non-positive raws. -/
theorem c3_amended :
    (∀ a b : ℚ, a < b → b ≤ 0 →
      normalize_bm25_score a < normalize_bm25_score b)
    ∧ (∀ docs contents ftsRowids ftsMatch bm25 collection limit include_binary,
      (store_search_bm25 docs contents ftsRowids ftsMatch bm25
          collection limit include_binary).Pairwise byRawAsc) := by
  constructor
  · intro a b hab hb0
    have ha0 : a < 0 := lt_of_lt_of_le hab hb0
    rw [normalize_bm25_score, normalize_bm25_score,
      abs_of_nonpos (le_of_lt ha0), abs_of_nonpos hb0]
    apply one_div_lt_one_div_of_lt
    · linarith
    · linarith
  · intro docs contents ftsRowids ftsMatch bm25 collection limit include_binary
    simp only [store_search_bm25]
    have hsorted := List.sorted_insertionSort byRawAsc
      (ftsRowids.flatMap (fun rid =>
        if ftsMatch rid then
          (docs.filter (fun d => d.id == rid && d.active
              && (match collection with | some c => d.collection == c | none => true))).flatMap
            (fun d => (contents.filter (fun c => c.hash == d.hash)).map
              (fun c => ({ id := d.id, collection := d.collection, path := d.path,
                           title := d.title, hash := d.hash, file_type := d.file_type,
                           content_type := c.content_type, size := c.size,
                           bm25_score := bm25 rid, snippet := none } : SearchResultRow)))
        else []))
    exact List.Pairwise.sublist
      ((List.filter_sublist _).trans (List.take_sublist _ _)) hsorted

/-- Witness for `c3_amended` at raw scores `-2 < -1 ≤ 0`. -/
theorem c3_amended_witness :
    normalize_bm25_score (-2) < normalize_bm25_score (-1) :=
  c3_amended.1 (-2) (-1) (by norm_num) (by norm_num)

/-- C10: the SQL `LIMIT` is applied before the Rust-side binary-MIME
filter, so with `include_binary = false` a database can hold `limit`
active non-binary matching documents and still get fewer than `limit`
results: a higher-ranked (more negative raw score) binary row eats a
`LIMIT` slot and is then discarded. -/
theorem c10_limit_before_binary_filter :
    ∃ (docs : List DocTableRow) (contents : List ContentTableRow)
      (ftsRowids : List Int) (ftsMatch : Int → Bool) (bm25 : Int → ℚ) (limit : Nat),
      limit ≤ activeNonBinaryMatches docs contents ftsMatch ∧
      (store_search_bm25 docs contents ftsRowids ftsMatch bm25 none limit false).length
        < limit := by
  refine ⟨[⟨1, "c".toList, "a.png".toList, none, "h1".toList, "png".toList, true⟩,
           ⟨2, "c".toList, "b.md".toList, none, "h2".toList, "md".toList, true⟩],
          [⟨"h1".toList, "image/png".toList, 10⟩, ⟨"h2".toList, "text/plain".toList, 5⟩],
          [1, 2], fun _ => true, fun rid => if rid == 1 then -2 else -1, 1, ?_, ?_⟩
  · decide
  · decide

/-!
## Reciprocal rank fusion (`src/qfs/src/search/mod.rs`,
`reciprocal_rank_fusion` and `Searcher::search_hybrid_with_embedding`)

The Rust `HashMap<i64, (f64, Option<SearchResult>)>` keyed by
document id is modelled as an insertion-ordered association list of
`(id, fused score)`; the first-seen result object kept alongside each
entry carries no claim-relevant data beyond the id.
-/

/-- One `scores.entry(id).or_insert(0.0).0 += inc` step. -/
def rrf_insert (scores : List (Int × ℚ)) (id0 : Int) (inc : ℚ) : List (Int × ℚ) :=
  if scores.any (fun p => p.1 == id0) then
    scores.map (fun p => if p.1 == id0 then (p.1, p.2 + inc) else p)
  else scores ++ [(id0, inc)]

/-- The `for (rank, result) in results.iter().enumerate()` loop:
each result adds `1.0 / (k + rank + 1.0)` (0-based `rank`, so this is
`1/(k + r)` for 1-indexed `r`) to its document's fused score. -/
def addRankingFrom (k : ℚ) : List SearchResult → Nat → List (Int × ℚ) → List (Int × ℚ)
  | [], _, scores => scores
  | r :: rest, rank, scores =>
    addRankingFrom k rest (rank + 1) (rrf_insert scores r.id (1 / (k + rank + 1)))

/-- The fused score table after both ranking loops. -/
def rrfScores (bm25_results vector_results : List SearchResult) (k : ℚ) : List (Int × ℚ) :=
  addRankingFrom k vector_results 0 (addRankingFrom k bm25_results 0 [])

/-- The descending-fused-score comparison of the final `sort_by`. -/
def byScoreDesc (a b : SearchResult) : Prop :=
  b.score ≤ a.score

instance : DecidableRel byScoreDesc :=
  fun a b => inferInstanceAs (Decidable (b.score ≤ a.score))

instance : IsTotal SearchResult byScoreDesc := ⟨fun a b => (le_total b.score a.score)⟩

instance : IsTrans SearchResult byScoreDesc := ⟨fun _ _ _ hab hbc => le_trans hbc hab⟩

/-- `reciprocal_rank_fusion`: accumulate RRF scores from both
rankings, set each document's score to its fused score, sort by
fused score descending (a stable sort, as Rust's `sort_by`). -/
def reciprocal_rank_fusion (bm25_results vector_results : List SearchResult)
    (k : ℚ) : List SearchResult :=
  ((rrfScores bm25_results vector_results k).map
    (fun p => ({ id := p.1, score := p.2 } : SearchResult))).insertionSort byScoreDesc

/-- `Searcher::search_hybrid_with_embedding`: run BM25 and vector
search each with `limit * 2`, fuse with `k = 60`, take the top
`limit`. -/
def search_hybrid_with_embedding (bm25Search vectorSearch : Nat → List SearchResult)
    (limit : Nat) : List SearchResult :=
  (reciprocal_rank_fusion (bm25Search (limit * 2)) (vectorSearch (limit * 2)) 60).take limit

theorem c4_example_scores :
    (rrfScores [⟨1, 0⟩, ⟨2, 0⟩] [⟨2, 0⟩, ⟨3, 0⟩] 60).lookup 2
        = some (0 + 1 / (60 + 1 + 1) + 1 / (60 + 0 + 1)) ∧
    (rrfScores [⟨1, 0⟩, ⟨2, 0⟩] [⟨2, 0⟩, ⟨3, 0⟩] 60).lookup 1
        = some (0 + 1 / (60 + 0 + 1)) ∧
    (rrfScores [⟨1, 0⟩, ⟨2, 0⟩] [⟨2, 0⟩, ⟨3, 0⟩] 60).lookup 3
        = some (0 + 1 / (60 + 1 + 1)) := by
  refine ⟨?_, ?_, ?_⟩ <;>
    simp [rrfScores, addRankingFrom, rrf_insert, List.lookup]

/-- C4: the claim's concrete RRF value for document 2 is wrong:
document 2 sits at rank 2 of the BM25 ranking and rank 1 of the
vector ranking, so its fused score is `1/62 + 1/61`, not
`1/61 + 1/61` as claimed. -/
theorem c4_counterexample :
    (rrfScores [⟨1, 0⟩, ⟨2, 0⟩] [⟨2, 0⟩, ⟨3, 0⟩] 60).lookup 2
      ≠ some ((1 : ℚ) / 61 + 1 / 61) := by
  rw [c4_example_scores.1]
  intro h
  have := Option.some.inj h
  norm_num at this

/-- C4 (amended): hybrid search runs BM25 and vector search each with
limit `2*limit`, fuses with `RRF_score(doc) = Σ 1/(k + rank)`
(`k = 60`, rank 1-indexed), sorts by fused score descending and takes
the top `limit`.  On the example rankings the fused score of id 2 is
`1/62 + 1/61` (rank 2 in BM25, rank 1 in vector), which is strictly
greater than id 1's `1/61` and id 3's `1/62`. -/
theorem c4_amended :
    ((rrfScores [⟨1, 0⟩, ⟨2, 0⟩] [⟨2, 0⟩, ⟨3, 0⟩] 60).lookup 2
        = some ((1 : ℚ) / 62 + 1 / 61) ∧
      (rrfScores [⟨1, 0⟩, ⟨2, 0⟩] [⟨2, 0⟩, ⟨3, 0⟩] 60).lookup 1 = some ((1 : ℚ) / 61) ∧
      (rrfScores [⟨1, 0⟩, ⟨2, 0⟩] [⟨2, 0⟩, ⟨3, 0⟩] 60).lookup 3 = some ((1 : ℚ) / 62) ∧
      (1 : ℚ) / 61 < 1 / 62 + 1 / 61 ∧ (1 : ℚ) / 62 < 1 / 62 + 1 / 61)
    ∧ (∀ bm25_results vector_results k,
      (reciprocal_rank_fusion bm25_results vector_results k).Pairwise byScoreDesc)
    ∧ (∀ bm25Search vectorSearch limit,
      (search_hybrid_with_embedding bm25Search vectorSearch limit).length ≤ limit ∧
      (search_hybrid_with_embedding bm25Search vectorSearch limit).Pairwise byScoreDesc) := by
  refine ⟨⟨?_, ?_, ?_, by norm_num, by norm_num⟩, ?_, ?_⟩
  · rw [c4_example_scores.1]; norm_num
  · rw [c4_example_scores.2.1]; norm_num
  · rw [c4_example_scores.2.2]; norm_num
  · intro bm25_results vector_results k
    exact List.sorted_insertionSort byScoreDesc _
  · intro bm25Search vectorSearch limit
    constructor
    · simp [search_hybrid_with_embedding]
    · exact List.Pairwise.sublist (List.take_sublist _ _)
        (List.sorted_insertionSort byScoreDesc _)

/-!
## Chunking (`src/qfs-embed/src/lib.rs`, `chunk_text`)
-/

/-- A chunk of text with position information (`TextChunk`). -/
structure TextChunk where
  text : List Char
  char_offset : Nat
  index : Nat
deriving DecidableEq

/-- The whitespace tokenizer with source offsets, on `fuel`
iterations: each iteration consumes at least one character, so
`fuel = text.length` (what `wordsFrom` passes) always suffices. -/
def wordsFromFuel : Nat → List Char → Nat → List (Nat × List Char)
  | 0, _, _ => []
  | _, [], _ => []
  | fuel + 1, c :: cs, pos =>
    if rustIsWhitespace c then wordsFromFuel fuel cs (pos + 1)
    else
      (pos, c :: cs.takeWhile (fun d => !rustIsWhitespace d)) ::
        wordsFromFuel fuel (cs.dropWhile (fun d => !rustIsWhitespace d))
          (pos + (c :: cs.takeWhile (fun d => !rustIsWhitespace d)).length)

/-- The whitespace tokenizer with source offsets: the Rust code pairs
`split_whitespace` tokens with their offsets via a running
`text[pos..].find(word)` scan; because the region between the running
position and the next token is all whitespace and tokens contain no
whitespace, that `find` lands exactly on the token start, which is
what this direct tokenizer computes. -/
def wordsFrom (text : List Char) (pos : Nat) : List (Nat × List Char) :=
  wordsFromFuel text.length text pos

/-- The chunking loop: emit the window of up to `chunk_size` tokens
starting at the current position, stop if the window reached the end
of the token list, otherwise advance by `step`.  `fuel` bounds the
number of iterations; `chunk_text` passes the token count, which
suffices because `step ≥ 1`. -/
def chunkLoop (chunk_size step : Nat) : Nat → List (Nat × List Char) → Nat → List TextChunk
  | 0, _, _ => []
  | _, [], _ => []
  | fuel + 1, w :: rest, idx =>
    let chunk : TextChunk :=
      { text := List.intercalate [' '] (((w :: rest).take chunk_size).map Prod.snd),
        char_offset := w.1, index := idx }
    if (w :: rest).length ≤ chunk_size then [chunk]
    else chunk :: chunkLoop chunk_size step fuel ((w :: rest).drop step) (idx + 1)

/-- `chunk_text(text, chunk_size, overlap)`: tokenize with offsets and
run the window loop with `step = max(chunk_size − overlap, 1)`
(saturating subtraction, as in Rust). -/
def chunk_text (text : List Char) (chunk_size overlap : Nat) : List TextChunk :=
  if text.isEmpty || chunk_size == 0 then []
  else
    let words := wordsFrom text 0
    if words.isEmpty then []
    else chunkLoop chunk_size ((chunk_size - overlap).max 1) words.length words 0

/-- The chunk the spec predicts at window index `j` over token list
`s`: the window of up to `chunk_size` tokens starting at `j * step`,
joined by single spaces, with `char_offset` the first token's source
offset. -/
def windowChunk (chunk_size step : Nat) (s : List (Nat × List Char)) (idx j : Nat) :
    TextChunk :=
  { text := List.intercalate [' '] (((s.drop (j * step)).take chunk_size).map Prod.snd),
    char_offset := (((s.drop (j * step)).head?).map Prod.fst).getD 0,
    index := idx + j }

theorem chunkLoop_spec (cs step : Nat) (hstep : 0 < step)
    (hsc : step ≤ cs) :
    ∀ (fuel : Nat) (s : List (Nat × List Char)) (idx : Nat), s ≠ [] → s.length ≤ fuel →
      (∀ j, j < (chunkLoop cs step fuel s idx).length →
        (chunkLoop cs step fuel s idx)[j]? = some (windowChunk cs step s idx j)
        ∧ j * step < s.length)
      ∧ (∀ j, j + 1 < (chunkLoop cs step fuel s idx).length → j * step + cs < s.length)
      ∧ 1 ≤ (chunkLoop cs step fuel s idx).length
      ∧ s.length ≤ ((chunkLoop cs step fuel s idx).length - 1) * step + cs := by
  intro fuel
  induction fuel with
  | zero =>
    intro s idx hs hlen
    exact absurd (List.eq_nil_of_length_eq_zero (Nat.le_zero.1 hlen)) hs
  | succ fuel ih =>
    intro s idx hs hlen
    match s with
    | [] => exact absurd rfl hs
    | w :: rest =>
      by_cases hle : (w :: rest).length ≤ cs
      · have hout : chunkLoop cs step (fuel + 1) (w :: rest) idx =
            [{ text := List.intercalate [' '] (((w :: rest).take cs).map Prod.snd),
               char_offset := w.1, index := idx }] := by
          unfold chunkLoop
          rw [if_pos hle]
        rw [hout]
        refine ⟨?_, ?_, by simp, by simpa using hle⟩
        · intro j hj
          simp only [List.length_singleton] at hj
          have hj0 : j = 0 := by omega
          subst hj0
          refine ⟨?_, by simp⟩
          simp [windowChunk]
        · intro j hj
          simp only [List.length_singleton] at hj
          omega
      · have hcslt : cs < (w :: rest).length := Nat.lt_of_not_le hle
        have hslt : step < (w :: rest).length := lt_of_le_of_lt hsc hcslt
        have hdlen : ((w :: rest).drop step).length = (w :: rest).length - step := by
          simp
        have hdne : (w :: rest).drop step ≠ [] := by
          apply List.ne_nil_of_length_pos
          rw [hdlen]
          omega
        have hdfuel : ((w :: rest).drop step).length ≤ fuel := by
          rw [hdlen]
          simp only [List.length_cons] at hlen ⊢
          omega
        obtain ⟨ih1, ih2, ih3, ih4⟩ := ih ((w :: rest).drop step) (idx + 1) hdne hdfuel
        have hout : chunkLoop cs step (fuel + 1) (w :: rest) idx =
            { text := List.intercalate [' '] (((w :: rest).take cs).map Prod.snd),
              char_offset := w.1, index := idx } ::
              chunkLoop cs step fuel ((w :: rest).drop step) (idx + 1) := by
          simp only [chunkLoop]
          rw [if_neg hle]
        rw [hout]
        have hwindow : ∀ j', windowChunk cs step ((w :: rest).drop step) (idx + 1) j'
            = windowChunk cs step (w :: rest) idx (j' + 1) := by
          intro j'
          unfold windowChunk
          rw [List.drop_drop, Nat.succ_mul]
          have harith : j' * step + step = step + j' * step := Nat.add_comm _ _
          rw [← harith]
          have hidx : idx + 1 + j' = idx + (j' + 1) := by omega
          rw [hidx]
        refine ⟨?_, ?_, by simp, ?_⟩
        · intro j hj
          match j with
          | 0 =>
            refine ⟨?_, by simp⟩
            simp [windowChunk]
          | j' + 1 =>
            simp only [List.length_cons] at hj
            have hj' : j' < (chunkLoop cs step fuel ((w :: rest).drop step) (idx + 1)).length := by
              omega
            obtain ⟨he, hb⟩ := ih1 j' hj'
            rw [List.getElem?_cons_succ, he, hwindow j']
            refine ⟨rfl, ?_⟩
            rw [hdlen] at hb
            rw [Nat.succ_mul]
            generalize j' * step = M at hb ⊢
            omega
        · intro j hj
          match j with
          | 0 =>
            simpa using hcslt
          | j' + 1 =>
            simp only [List.length_cons] at hj
            have hj' : j' + 1 < (chunkLoop cs step fuel ((w :: rest).drop step) (idx + 1)).length := by
              omega
            have := ih2 j' hj'
            rw [hdlen] at this
            rw [Nat.succ_mul]
            generalize j' * step = M at this ⊢
            omega
        · simp only [List.length_cons]
          rw [hdlen] at ih4
          obtain ⟨m, hm⟩ := Nat.exists_eq_add_of_le ih3
          rw [hm] at ih4 ⊢
          have h1 : (1 + m - 1) * step = m * step := by
            congr 1
            omega
          rw [h1] at ih4
          have h2 : (1 + m + 1 - 1) * step = step + m * step := by
            have h3 : 1 + m + 1 - 1 = 1 + m := by omega
            rw [h3, Nat.add_mul, Nat.one_mul]
          rw [h2]
          simp only [List.length_cons] at ih4
          generalize m * step = M at ih4 ⊢
          omega

/-- C5: `chunk_text` — for every text and every `chunk_size > 0`, with
`step = max(1, chunk_size − overlap)`: chunk `j` is the window of up
to `chunk_size` tokens starting at token `j*step`, joined by single
spaces, with `char_offset` the first token's source offset and
`index = j` (monotone from 0); every non-final window starts strictly
before the end and the final window reaches the end of the token
list; there are chunks iff there are tokens.  In particular
`chunk_text("one two three four five six seven eight nine ten", 4, 1)`
produces exactly the three claimed chunks. -/
theorem c5_chunking :
    (∀ (text : List Char) (cs ov : Nat), 0 < cs →
      (∀ j, j < (chunk_text text cs ov).length →
        (chunk_text text cs ov)[j]? =
          some (windowChunk cs ((cs - ov).max 1) (wordsFrom text 0) 0 j)
        ∧ j * ((cs - ov).max 1) < (wordsFrom text 0).length)
      ∧ (∀ j, j + 1 < (chunk_text text cs ov).length →
          j * ((cs - ov).max 1) + cs < (wordsFrom text 0).length)
      ∧ (wordsFrom text 0).length ≤
          ((chunk_text text cs ov).length - 1) * ((cs - ov).max 1) + cs
      ∧ (chunk_text text cs ov = [] ↔ wordsFrom text 0 = []))
    ∧ chunk_text "one two three four five six seven eight nine ten".toList 4 1 =
        [⟨"one two three four".toList, 0, 0⟩,
         ⟨"four five six seven".toList, 14, 1⟩,
         ⟨"seven eight nine ten".toList, 28, 2⟩] := by
  constructor
  · intro text cs ov hcs
    have hstep : 0 < (cs - ov).max 1 := lt_of_lt_of_le one_pos (Nat.le_max_right _ _)
    have hsc : (cs - ov).max 1 ≤ cs := Nat.max_le.2 ⟨Nat.sub_le cs ov, hcs⟩
    by_cases htext : text.isEmpty
    · have htnil : text = [] := List.isEmpty_iff.1 htext
      have hout : chunk_text text cs ov = [] := by
        unfold chunk_text
        rw [if_pos]
        rw [htext]
        rfl
      have hwnil : wordsFrom text 0 = [] := by rw [htnil]; rfl
      rw [hout, hwnil]
      refine ⟨by simp, by simp, by simp, by simp⟩
    · have hguard : (text.isEmpty || cs == 0) = false := by
        simp [htext, Nat.pos_iff_ne_zero.1 hcs]
      by_cases hws : (wordsFrom text 0).isEmpty
      · have hwnil : wordsFrom text 0 = [] := List.isEmpty_iff.1 hws
        have hout : chunk_text text cs ov = [] := by
          unfold chunk_text
          rw [if_neg (by simp [hguard])]
          simp only [hws]
          rfl
        rw [hout, hwnil]
        refine ⟨by simp, by simp, by simp, by simp⟩
      · have hwne : wordsFrom text 0 ≠ [] := by
          simpa [List.isEmpty_iff] using hws
        have hout : chunk_text text cs ov =
            chunkLoop cs ((cs - ov).max 1) (wordsFrom text 0).length (wordsFrom text 0) 0 := by
          unfold chunk_text
          rw [if_neg (by simp [hguard])]
          simp only [hws]
          rfl
        obtain ⟨h1, h2, h3, h4⟩ := chunkLoop_spec cs ((cs - ov).max 1) hstep hsc
          (wordsFrom text 0).length (wordsFrom text 0) 0 hwne le_rfl
        rw [hout]
        refine ⟨h1, h2, h4, ?_⟩
        constructor
        · intro hnil
          rw [hnil] at h3
          simp at h3
        · intro hnil
          exact absurd hnil hwne
  · decide

/-- Witness for `c5_chunking` at `chunk_text "one two" 4 1`. -/
theorem c5_chunking_witness :
    chunk_text "one two".toList 4 1 = [] ↔ wordsFrom "one two".toList 0 = [] :=
  (c5_chunking.1 "one two".toList 4 1 (by decide)).2.2.2

/-!
## Document/FTS synchronization
(`src/qfs/src/store/mod.rs`: `Store::upsert_document`,
`Store::deactivate_document`, `Store::remove_collection`)

The `documents` table is a list of rows with a `UNIQUE(collection,
path)` constraint and `AUTOINCREMENT` ids (never reused, tracked by
`nextId`); `documents_fts` is a list of rows keyed by `rowid`.  The
`collections` table itself carries no data relevant to the FTS
invariant and is omitted.
-/

/-- A `documents` row (the fields the three mutations touch). -/
structure DocRec where
  id : Nat
  collection : List Char
  path : List Char
  title : Option (List Char)
  hash : List Char
  file_type : List Char
  active : Bool
deriving DecidableEq

/-- A `documents_fts` row: `(rowid, filepath, title, body)`. -/
structure FtsRec where
  rowid : Nat
  filepath : List Char
  title : List Char
  body : List Char
deriving DecidableEq

/-- The store state the FTS invariant ranges over. -/
structure StoreState where
  docs : List DocRec
  fts : List FtsRec
  nextId : Nat
deriving DecidableEq

/-- Fresh database: no rows, `AUTOINCREMENT` counter at 1. -/
def initState : StoreState :=
  { docs := [], fts := [], nextId := 1 }

/-- The per-row effect of the `ON CONFLICT … DO UPDATE` clause:
overwrite title/hash/file_type and set `active = 1` on the matching
`(collection, path)` row. -/
def updateDoc (collection path : List Char) (title : Option (List Char))
    (hash file_type : List Char) (d : DocRec) : DocRec :=
  if d.collection == collection && d.path == path then
    { d with title := title, hash := hash, file_type := file_type, active := true }
  else d

/-- The per-row effect of `UPDATE documents SET active = 0 WHERE
collection = ? AND path = ?`. -/
def setInactive (collection path : List Char) (d : DocRec) : DocRec :=
  if d.collection == collection && d.path == path then { d with active := false } else d

/-- The FTS row `INSERT INTO documents_fts (rowid, filepath, title,
body)` writes: `filepath = "{collection}/{path}"`, `title`
defaulting to the empty string. -/
def upsertRow (collection path : List Char) (title : Option (List Char))
    (body : List Char) (rid : Nat) : FtsRec :=
  { rowid := rid, filepath := collection ++ '/' :: path,
    title := title.getD [], body := body }

/-- The fresh `documents` row the `INSERT` writes when no
`(collection, path)` row exists. -/
def insertedDoc (collection path : List Char) (title : Option (List Char))
    (hash file_type : List Char) (rid : Nat) : DocRec :=
  { id := rid, collection := collection, path := path,
    title := title, hash := hash, file_type := file_type, active := true }

/-- `Store::upsert_document`: `INSERT … ON CONFLICT(collection, path)
DO UPDATE` (setting `active = 1`), then re-read the row id, then
delete-and-insert the FTS row with that rowid. -/
def upsert_document (s : StoreState) (collection path : List Char)
    (title : Option (List Char)) (hash file_type body : List Char) : StoreState :=
  match s.docs.find? (fun d => d.collection == collection && d.path == path) with
  | some d0 =>
    { docs := s.docs.map (updateDoc collection path title hash file_type),
      fts := (s.fts.filter (fun r => r.rowid != d0.id)) ++
        [upsertRow collection path title body d0.id],
      nextId := s.nextId }
  | none =>
    { docs := s.docs ++ [insertedDoc collection path title hash file_type s.nextId],
      fts := (s.fts.filter (fun r => r.rowid != s.nextId)) ++
        [upsertRow collection path title body s.nextId],
      nextId := s.nextId + 1 }

/-- `Store::deactivate_document`: look up the *active* document (as
`get_document` does); if found, delete its FTS row; then set
`active = 0` on the `(collection, path)` row. -/
def deactivate_document (s : StoreState) (collection path : List Char) : StoreState :=
  { docs := s.docs.map (setInactive collection path),
    fts :=
      match s.docs.find? (fun d => d.collection == collection && d.path == path && d.active) with
      | some d0 => s.fts.filter (fun r => r.rowid != d0.id)
      | none => s.fts,
    nextId := s.nextId }

/-- `Store::remove_collection`: `DELETE FROM documents WHERE
collection = ?` then delete the collection row — and nothing else: no
`documents_fts` cleanup. -/
def remove_collection (s : StoreState) (name : List Char) : StoreState :=
  { docs := s.docs.filter (fun d => d.collection != name),
    fts := s.fts,
    nextId := s.nextId }

/-- The three mutating store operations of the claim. -/
inductive StoreOp where
  | upsert (collection path : List Char) (title : Option (List Char))
      (hash file_type body : List Char)
  | deactivate (collection path : List Char)
  | removeCollection (name : List Char)
deriving DecidableEq

def applyOp (s : StoreState) : StoreOp → StoreState
  | .upsert c p t h f b => upsert_document s c p t h f b
  | .deactivate c p => deactivate_document s c p
  | .removeCollection n => remove_collection s n

def applyOps (s : StoreState) (ops : List StoreOp) : StoreState :=
  ops.foldl applyOp s

/-- The operations that maintain the FTS index (`remove_collection`
does not). -/
def isSyncOp : StoreOp → Bool
  | .removeCollection _ => false
  | _ => true

/-- The claimed invariant: a `documents_fts` row with a given rowid
exists iff an active document with that id exists — and then exactly
one such row. -/
def ftsSyncedProp (s : StoreState) : Prop :=
  ∀ rid : Nat, s.fts.countP (fun r => r.rowid == rid) =
    (if s.docs.any (fun d => d.id == rid && d.active) then 1 else 0)

/-- Structural well-formedness: ids below the autoincrement counter,
unique ids, unique `(collection, path)` pairs, unique FTS rowids, and
every active document covered by an FTS row. -/
def docIdsBounded (s : StoreState) : Prop := ∀ d ∈ s.docs, d.id < s.nextId

def docIdsNodup (s : StoreState) : Prop := s.docs.Pairwise (fun a b => a.id ≠ b.id)

def docPairsNodup (s : StoreState) : Prop :=
  s.docs.Pairwise (fun a b => ¬(a.collection = b.collection ∧ a.path = b.path))

def ftsNodup (s : StoreState) : Prop := s.fts.Pairwise (fun a b => a.rowid ≠ b.rowid)

def ftsCovers (s : StoreState) : Prop :=
  ∀ d ∈ s.docs, d.active = true → ∃ r ∈ s.fts, r.rowid = d.id

def ftsNoOrphans (s : StoreState) : Prop :=
  ∀ r ∈ s.fts, ∃ d ∈ s.docs, d.id = r.rowid ∧ d.active = true

def storeInv (s : StoreState) : Prop :=
  docIdsBounded s ∧ docIdsNodup s ∧ docPairsNodup s ∧ ftsNodup s ∧ ftsCovers s

theorem initState_inv : storeInv initState ∧ ftsNoOrphans initState := by
  refine ⟨⟨?_, ?_, ?_, ?_, ?_⟩, ?_⟩ <;> simp [initState, docIdsBounded, docIdsNodup,
    docPairsNodup, ftsNodup, ftsCovers, ftsNoOrphans]

/-- Two members of a pairwise-distinct-pairs list that match the same
`(collection, path)` query are the same element. -/
theorem docPairs_unique {s : StoreState} (h : docPairsNodup s)
    {a b : DocRec} (ha : a ∈ s.docs) (hb : b ∈ s.docs)
    (hpa : a.collection = b.collection) (hpb : a.path = b.path) : a = b := by
  by_contra hne
  have hsym : Symmetric (fun x y : DocRec => ¬(x.collection = y.collection ∧ x.path = y.path)) := by
    intro x y hxy hc
    exact hxy ⟨hc.1.symm, hc.2.symm⟩
  exact (h.forall hsym ha hb hne) ⟨hpa, hpb⟩

/-- Two members of a pairwise-distinct-ids list with the same id are
the same element. -/
theorem docIds_unique {s : StoreState} (h : docIdsNodup s)
    {a b : DocRec} (ha : a ∈ s.docs) (hb : b ∈ s.docs) (hid : a.id = b.id) : a = b := by
  by_contra hne
  have hsym : Symmetric (fun x y : DocRec => x.id ≠ y.id) := fun x y hxy => (Ne.symm hxy)
  exact (h.forall hsym ha hb hne) hid

theorem countP_rowid_eq_one {fts : List FtsRec} (hnd : fts.Pairwise (fun a b => a.rowid ≠ b.rowid))
    {rid : Nat} (hex : ∃ r ∈ fts, r.rowid = rid) :
    fts.countP (fun r => r.rowid == rid) = 1 := by
  induction fts with
  | nil => simp at hex
  | cons r l ih =>
    rw [List.pairwise_cons] at hnd
    by_cases hr : r.rowid = rid
    · have hzero : l.countP (fun x => x.rowid == rid) = 0 := by
        rw [List.countP_eq_zero]
        intro x hx
        simp only [beq_iff_eq]
        rw [← hr]
        exact (hnd.1 x hx).symm
      rw [List.countP_cons]
      simp [hr, hzero]
    · obtain ⟨x, hx, hxr⟩ := hex
      rcases List.mem_cons.1 hx with h1 | h1
      · exact absurd (h1 ▸ hxr) hr
      · rw [List.countP_cons]
        simp only [beq_iff_eq, hr]
        rw [ih hnd.2 ⟨x, h1, hxr⟩]
        simp

theorem synced_of_inv {s : StoreState} (hnd : ftsNodup s) (hcov : ftsCovers s)
    (hnor : ftsNoOrphans s) : ftsSyncedProp s := by
  intro rid
  by_cases h : s.docs.any (fun d => d.id == rid && d.active) = true
  · rw [if_pos h]
    obtain ⟨d, hd, hdp⟩ := List.any_eq_true.1 h
    simp only [Bool.and_eq_true, beq_iff_eq] at hdp
    obtain ⟨r, hr, hrr⟩ := hcov d hd hdp.2
    exact countP_rowid_eq_one hnd ⟨r, hr, hrr.trans hdp.1⟩
  · rw [if_neg h]
    rw [List.countP_eq_zero]
    intro r hr
    simp only [beq_iff_eq]
    intro hrr
    obtain ⟨d, hd, hdi, hda⟩ := hnor r hr
    apply h
    exact List.any_eq_true.2 ⟨d, hd, by simp [hdi, hrr, hda]⟩

@[simp] theorem updateDoc_id (c p : List Char) (t : Option (List Char)) (h f : List Char)
    (d : DocRec) : (updateDoc c p t h f d).id = d.id := by
  unfold updateDoc
  by_cases hc : (d.collection == c && d.path == p) = true
  · rw [if_pos hc]
  · rw [if_neg hc]

@[simp] theorem updateDoc_collection (c p : List Char) (t : Option (List Char))
    (h f : List Char) (d : DocRec) : (updateDoc c p t h f d).collection = d.collection := by
  unfold updateDoc
  by_cases hc : (d.collection == c && d.path == p) = true
  · rw [if_pos hc]
  · rw [if_neg hc]

@[simp] theorem updateDoc_path (c p : List Char) (t : Option (List Char)) (h f : List Char)
    (d : DocRec) : (updateDoc c p t h f d).path = d.path := by
  unfold updateDoc
  by_cases hc : (d.collection == c && d.path == p) = true
  · rw [if_pos hc]
  · rw [if_neg hc]

theorem updateDoc_nomatch {c p : List Char} (t : Option (List Char)) (h f : List Char)
    {d : DocRec} (hm : ¬(d.collection = c ∧ d.path = p)) : updateDoc c p t h f d = d := by
  unfold updateDoc
  rw [if_neg]
  simpa using hm

theorem updateDoc_active_match {c p : List Char} (t : Option (List Char)) (h f : List Char)
    {d : DocRec} (hm : d.collection = c ∧ d.path = p) :
    (updateDoc c p t h f d).active = true := by
  unfold updateDoc
  rw [if_pos (by simp [hm.1, hm.2])]

theorem updateDoc_active_of_active {c p : List Char} (t : Option (List Char))
    (h f : List Char) {d : DocRec} (ha : d.active = true) :
    (updateDoc c p t h f d).active = true := by
  unfold updateDoc
  by_cases hc : (d.collection == c && d.path == p) = true
  · rw [if_pos hc]
  · rw [if_neg hc]; exact ha

@[simp] theorem setInactive_id (c p : List Char) (d : DocRec) :
    (setInactive c p d).id = d.id := by
  unfold setInactive
  by_cases hc : (d.collection == c && d.path == p) = true
  · rw [if_pos hc]
  · rw [if_neg hc]

@[simp] theorem setInactive_collection (c p : List Char) (d : DocRec) :
    (setInactive c p d).collection = d.collection := by
  unfold setInactive
  by_cases hc : (d.collection == c && d.path == p) = true
  · rw [if_pos hc]
  · rw [if_neg hc]

@[simp] theorem setInactive_path (c p : List Char) (d : DocRec) :
    (setInactive c p d).path = d.path := by
  unfold setInactive
  by_cases hc : (d.collection == c && d.path == p) = true
  · rw [if_pos hc]
  · rw [if_neg hc]

theorem setInactive_nomatch {c p : List Char} {d : DocRec}
    (hm : ¬(d.collection = c ∧ d.path = p)) : setInactive c p d = d := by
  unfold setInactive
  rw [if_neg]
  simpa using hm

theorem setInactive_active {c p : List Char} {d : DocRec}
    (ha : (setInactive c p d).active = true) :
    d.active = true ∧ ¬(d.collection = c ∧ d.path = p) := by
  unfold setInactive at ha
  by_cases hc : (d.collection == c && d.path == p) = true
  · rw [if_pos hc] at ha
    simp at ha
  · rw [if_neg hc] at ha
    refine ⟨ha, ?_⟩
    simpa using hc

@[simp] theorem upsertRow_rowid (c p : List Char) (t : Option (List Char)) (b : List Char)
    (rid : Nat) : (upsertRow c p t b rid).rowid = rid := rfl

@[simp] theorem insertedDoc_id (c p : List Char) (t : Option (List Char)) (h f : List Char)
    (rid : Nat) : (insertedDoc c p t h f rid).id = rid := rfl

@[simp] theorem insertedDoc_active (c p : List Char) (t : Option (List Char))
    (h f : List Char) (rid : Nat) : (insertedDoc c p t h f rid).active = true := rfl

@[simp] theorem insertedDoc_collection (c p : List Char) (t : Option (List Char))
    (h f : List Char) (rid : Nat) : (insertedDoc c p t h f rid).collection = c := rfl

@[simp] theorem insertedDoc_path (c p : List Char) (t : Option (List Char))
    (h f : List Char) (rid : Nat) : (insertedDoc c p t h f rid).path = p := rfl

theorem covered_count_one {s : StoreState} (hnd : ftsNodup s) (hcov : ftsCovers s)
    {rid : Nat} (h : s.docs.any (fun d => d.id == rid && d.active) = true) :
    s.fts.countP (fun r => r.rowid == rid) = 1 := by
  obtain ⟨d, hd, hdp⟩ := List.any_eq_true.1 h
  simp only [Bool.and_eq_true, beq_iff_eq] at hdp
  obtain ⟨r, hr, hrr⟩ := hcov d hd hdp.2
  exact countP_rowid_eq_one hnd ⟨r, hr, hrr.trans hdp.1⟩

theorem upsert_preserves (s : StoreState) (collection path : List Char)
    (title : Option (List Char)) (hash file_type body : List Char) (h : storeInv s) :
    storeInv (upsert_document s collection path title hash file_type body) ∧
    (ftsNoOrphans s →
      ftsNoOrphans (upsert_document s collection path title hash file_type body)) := by
  obtain ⟨hB, hI, hP, hF, hC⟩ := h
  cases hfind : s.docs.find? (fun d => d.collection == collection && d.path == path) with
  | some d0 =>
    have hd0mem : d0 ∈ s.docs := List.mem_of_find?_eq_some hfind
    have hd0p : d0.collection = collection ∧ d0.path = path := by
      have hp := List.find?_some hfind
      simpa using hp
    have hup : upsert_document s collection path title hash file_type body =
        { docs := s.docs.map (updateDoc collection path title hash file_type),
          fts := (s.fts.filter (fun r => r.rowid != d0.id)) ++
            [upsertRow collection path title body d0.id],
          nextId := s.nextId } := by
      unfold upsert_document
      rw [hfind]
    rw [hup]
    refine ⟨⟨?_, ?_, ?_, ?_, ?_⟩, ?_⟩
    · -- docIdsBounded
      intro d' hd'
      rcases List.mem_map.1 hd' with ⟨d, hd, rfl⟩
      simp only [updateDoc_id]
      exact hB d hd
    · -- docIdsNodup
      exact List.Pairwise.map _
        (fun a b hab => by simp only [updateDoc_id]; exact hab) hI
    · -- docPairsNodup
      exact List.Pairwise.map _
        (fun a b hab => by
          simp only [updateDoc_collection, updateDoc_path]; exact hab) hP
    · -- ftsNodup
      rw [ftsNodup, List.pairwise_append]
      refine ⟨hF.filter _, by simp, ?_⟩
      intro a ha b hb
      have hane := (List.mem_filter.1 ha).2
      have hb' : b = upsertRow collection path title body d0.id := by simpa using hb
      subst hb'
      simpa using hane
    · -- ftsCovers
      intro d' hd' hact
      rcases List.mem_map.1 hd' with ⟨d, hd, rfl⟩
      by_cases hm : d.collection = collection ∧ d.path = path
      · have hdd0 : d = d0 :=
          docPairs_unique (s := s) hP hd hd0mem
            (hm.1.trans hd0p.1.symm) (hm.2.trans hd0p.2.symm)
        refine ⟨_, List.mem_append_right _ (List.mem_singleton_self _), ?_⟩
        simp [updateDoc_id, hdd0]
      · have hud : updateDoc collection path title hash file_type d = d :=
          updateDoc_nomatch _ _ _ hm
        rw [hud] at hact ⊢
        obtain ⟨r, hr, hrr⟩ := hC d hd hact
        have hne : d.id ≠ d0.id := by
          intro he
          have hdd0 : d = d0 := docIds_unique hI hd hd0mem he
          rw [hdd0] at hm
          exact hm hd0p
        refine ⟨r, List.mem_append_left _ (List.mem_filter.2 ⟨hr, ?_⟩), hrr⟩
        simp only [bne_iff_ne, ne_eq]
        rw [hrr]
        simpa using hne
    · -- ftsNoOrphans
      intro hnor r' hr'
      rcases List.mem_append.1 hr' with hrf | hrs
      · obtain ⟨hrmem, hrne⟩ := List.mem_filter.1 hrf
        obtain ⟨d, hd, hdi, hda⟩ := hnor r' hrmem
        refine ⟨updateDoc collection path title hash file_type d,
          List.mem_map_of_mem _ hd, ?_, updateDoc_active_of_active _ _ _ hda⟩
        simp [updateDoc_id, hdi]
      · have hr'' : r' = upsertRow collection path title body d0.id := by simpa using hrs
        subst hr''
        refine ⟨updateDoc collection path title hash file_type d0,
          List.mem_map_of_mem _ hd0mem, by simp [updateDoc_id],
          updateDoc_active_match _ _ _ hd0p⟩
  | none =>
    have hnone : ∀ d ∈ s.docs, ¬(d.collection = collection ∧ d.path = path) := by
      intro d hd
      have := List.find?_eq_none.1 hfind d hd
      simpa using this
    have hup : upsert_document s collection path title hash file_type body =
        { docs := s.docs ++ [insertedDoc collection path title hash file_type s.nextId],
          fts := (s.fts.filter (fun r => r.rowid != s.nextId)) ++
            [upsertRow collection path title body s.nextId],
          nextId := s.nextId + 1 } := by
      unfold upsert_document
      rw [hfind]
    rw [hup]
    refine ⟨⟨?_, ?_, ?_, ?_, ?_⟩, ?_⟩
    · -- docIdsBounded
      intro d' hd'
      rcases List.mem_append.1 hd' with hdo | hdn
      · exact Nat.lt_succ_of_lt (hB d' hdo)
      · have hd'' : d' = insertedDoc collection path title hash file_type s.nextId := by
          simpa using hdn
        rw [hd'']
        exact Nat.lt_succ_self s.nextId
    · -- docIdsNodup
      rw [docIdsNodup, List.pairwise_append]
      refine ⟨hI, by simp, ?_⟩
      intro a ha b hb
      have hb' : b = insertedDoc collection path title hash file_type s.nextId := by
        simpa using hb
      subst hb'
      simpa using Nat.ne_of_lt (hB a ha)
    · -- docPairsNodup
      rw [docPairsNodup, List.pairwise_append]
      refine ⟨hP, by simp, ?_⟩
      intro a ha b hb
      have hb' : b = insertedDoc collection path title hash file_type s.nextId := by
        simpa using hb
      subst hb'
      simpa using hnone a ha
    · -- ftsNodup
      rw [ftsNodup, List.pairwise_append]
      refine ⟨hF.filter _, by simp, ?_⟩
      intro a ha b hb
      have hane := (List.mem_filter.1 ha).2
      have hb' : b = upsertRow collection path title body s.nextId := by simpa using hb
      subst hb'
      simpa using hane
    · -- ftsCovers
      intro d' hd' hact
      rcases List.mem_append.1 hd' with hdo | hdn
      · obtain ⟨r, hr, hrr⟩ := hC d' hdo hact
        refine ⟨r, List.mem_append_left _ (List.mem_filter.2 ⟨hr, ?_⟩), hrr⟩
        simp only [bne_iff_ne, ne_eq]
        rw [hrr]
        exact Nat.ne_of_lt (hB d' hdo)
      · have hd'' : d' = insertedDoc collection path title hash file_type s.nextId := by
          simpa using hdn
        subst hd''
        exact ⟨_, List.mem_append_right _ (List.mem_singleton_self _), by simp⟩
    · -- ftsNoOrphans
      intro hnor r' hr'
      rcases List.mem_append.1 hr' with hrf | hrs
      · obtain ⟨hrmem, _⟩ := List.mem_filter.1 hrf
        obtain ⟨d, hd, hdi, hda⟩ := hnor r' hrmem
        exact ⟨d, List.mem_append_left _ hd, hdi, hda⟩
      · have hr'' : r' = upsertRow collection path title body s.nextId := by simpa using hrs
        subst hr''
        exact ⟨_, List.mem_append_right _ (List.mem_singleton_self _), by simp, by simp⟩

theorem deactivate_preserves (s : StoreState) (collection path : List Char)
    (h : storeInv s) :
    storeInv (deactivate_document s collection path) ∧
    (ftsNoOrphans s → ftsNoOrphans (deactivate_document s collection path)) := by
  obtain ⟨hB, hI, hP, hF, hC⟩ := h
  cases hfind : s.docs.find?
      (fun d => d.collection == collection && d.path == path && d.active) with
  | some d0 =>
    have hd0mem : d0 ∈ s.docs := List.mem_of_find?_eq_some hfind
    have hd0p : (d0.collection = collection ∧ d0.path = path) ∧ d0.active = true := by
      have hp := List.find?_some hfind
      simpa using hp
    have hdd : deactivate_document s collection path =
        { docs := s.docs.map (setInactive collection path),
          fts := s.fts.filter (fun r => r.rowid != d0.id),
          nextId := s.nextId } := by
      unfold deactivate_document
      rw [hfind]
    rw [hdd]
    refine ⟨⟨?_, ?_, ?_, hF.filter _, ?_⟩, ?_⟩
    · intro d' hd'
      rcases List.mem_map.1 hd' with ⟨d, hd, rfl⟩
      simp only [setInactive_id]
      exact hB d hd
    · exact List.Pairwise.map _
        (fun a b hab => by simp only [setInactive_id]; exact hab) hI
    · exact List.Pairwise.map _
        (fun a b hab => by
          simp only [setInactive_collection, setInactive_path]; exact hab) hP
    · intro d' hd' hact
      rcases List.mem_map.1 hd' with ⟨d, hd, rfl⟩
      obtain ⟨hda, hm⟩ := setInactive_active hact
      obtain ⟨r, hr, hrr⟩ := hC d hd hda
      have hne : d.id ≠ d0.id := by
        intro he
        have hdd0 : d = d0 := docIds_unique hI hd hd0mem he
        rw [hdd0] at hm
        exact hm ⟨hd0p.1.1, hd0p.1.2⟩
      refine ⟨r, List.mem_filter.2 ⟨hr, ?_⟩, by simp [hrr]⟩
      simp only [bne_iff_ne, ne_eq]
      rw [hrr]
      simpa using hne
    · intro hnor r' hr'
      obtain ⟨hrmem, hrne⟩ := List.mem_filter.1 hr'
      obtain ⟨d, hd, hdi, hda⟩ := hnor r' hrmem
      have hm : ¬(d.collection = collection ∧ d.path = path) := by
        intro hmm
        have hdd0 : d = d0 :=
          docPairs_unique (s := s) hP hd hd0mem
            (hmm.1.trans hd0p.1.1.symm) (hmm.2.trans hd0p.1.2.symm)
        rw [hdd0] at hdi
        rw [← hdi] at hrne
        simp at hrne
      refine ⟨setInactive collection path d, List.mem_map_of_mem _ hd, ?_, ?_⟩
      · simp [setInactive_id, hdi]
      · rw [setInactive_nomatch hm]
        exact hda
  | none =>
    have hnone : ∀ d ∈ s.docs, d.active = true →
        ¬(d.collection = collection ∧ d.path = path) := by
      intro d hd hda hmm
      have := List.find?_eq_none.1 hfind d hd
      simp [hmm.1, hmm.2, hda] at this
    have hdd : deactivate_document s collection path =
        { docs := s.docs.map (setInactive collection path),
          fts := s.fts,
          nextId := s.nextId } := by
      unfold deactivate_document
      rw [hfind]
    rw [hdd]
    refine ⟨⟨?_, ?_, ?_, hF, ?_⟩, ?_⟩
    · intro d' hd'
      rcases List.mem_map.1 hd' with ⟨d, hd, rfl⟩
      simp only [setInactive_id]
      exact hB d hd
    · exact List.Pairwise.map _
        (fun a b hab => by simp only [setInactive_id]; exact hab) hI
    · exact List.Pairwise.map _
        (fun a b hab => by
          simp only [setInactive_collection, setInactive_path]; exact hab) hP
    · intro d' hd' hact
      rcases List.mem_map.1 hd' with ⟨d, hd, rfl⟩
      obtain ⟨hda, _⟩ := setInactive_active hact
      obtain ⟨r, hr, hrr⟩ := hC d hd hda
      exact ⟨r, hr, by simp [hrr]⟩
    · intro hnor r' hr'
      obtain ⟨d, hd, hdi, hda⟩ := hnor r' hr'
      have hm : ¬(d.collection = collection ∧ d.path = path) := hnone d hd hda
      refine ⟨setInactive collection path d, List.mem_map_of_mem _ hd, ?_, ?_⟩
      · simp [setInactive_id, hdi]
      · rw [setInactive_nomatch hm]
        exact hda

theorem remove_preserves (s : StoreState) (name : List Char) (h : storeInv s) :
    storeInv (remove_collection s name) := by
  obtain ⟨hB, hI, hP, hF, hC⟩ := h
  refine ⟨?_, hI.filter _, hP.filter _, hF, ?_⟩
  · intro d hd
    exact hB d (List.mem_of_mem_filter hd)
  · intro d hd hact
    exact hC d (List.mem_of_mem_filter hd) hact

theorem applyOp_preserves (s : StoreState) (op : StoreOp) (h : storeInv s) :
    storeInv (applyOp s op) ∧
    (isSyncOp op = true → ftsNoOrphans s → ftsNoOrphans (applyOp s op)) := by
  cases op with
  | upsert c p t hh f b =>
    obtain ⟨h1, h2⟩ := upsert_preserves s c p t hh f b h
    exact ⟨h1, fun _ => h2⟩
  | deactivate c p =>
    obtain ⟨h1, h2⟩ := deactivate_preserves s c p h
    exact ⟨h1, fun _ => h2⟩
  | removeCollection n =>
    refine ⟨remove_preserves s n h, fun hsync => ?_⟩
    simp [isSyncOp] at hsync

theorem applyOps_preserves (ops : List StoreOp) :
    ∀ s : StoreState, storeInv s →
      storeInv (applyOps s ops) ∧
      ((∀ op ∈ ops, isSyncOp op = true) → ftsNoOrphans s →
        ftsNoOrphans (applyOps s ops)) := by
  induction ops with
  | nil => exact fun s h => ⟨h, fun _ h2 => h2⟩
  | cons op ops ih =>
    intro s h
    obtain ⟨h1, h2⟩ := applyOp_preserves s op h
    obtain ⟨h3, h4⟩ := ih (applyOp s op) h1
    refine ⟨h3, fun hall h0 => ?_⟩
    exact h4 (fun o ho => hall o (List.mem_cons_of_mem _ ho))
      (h2 (hall op (List.mem_cons_self _ _)) h0)

/-- C1: the claimed FTS synchronization invariant fails over the full
set of mutating operations: `remove_collection` deletes the
`documents` rows but not their `documents_fts` rows, so after
`upsert_document` followed by `remove_collection` an FTS row with
rowid 1 survives although no document with id 1 exists. -/
theorem c1_counterexample :
    ¬ (∀ ops : List StoreOp, ftsSyncedProp (applyOps initState ops)) := by
  intro h
  have h1 := h [StoreOp.upsert "c".toList "p".toList none "h".toList "md".toList "b".toList,
    StoreOp.removeCollection "c".toList] 1
  revert h1
  decide

/-- C1 (amended): the FTS synchronization invariant — a
`documents_fts` row with a given rowid exists iff an active document
with that id exists, and then exactly once — holds after any sequence
of `upsert_document` and `deactivate_document` operations (in
particular deactivation removes the document's FTS row); over
sequences that also contain `remove_collection`, the forward half
still holds: every active document has exactly one FTS row with its
id (but orphaned FTS rows may remain). -/
theorem c1_amended :
    (∀ ops : List StoreOp, (∀ op ∈ ops, isSyncOp op = true) →
      ftsSyncedProp (applyOps initState ops))
    ∧ (∀ (ops : List StoreOp) (rid : Nat),
      (applyOps initState ops).docs.any (fun d => d.id == rid && d.active) = true →
      (applyOps initState ops).fts.countP (fun r => r.rowid == rid) = 1) := by
  constructor
  · intro ops hall
    obtain ⟨hinv, hnor⟩ := applyOps_preserves ops initState initState_inv.1
    exact synced_of_inv hinv.2.2.2.1 hinv.2.2.2.2 (hnor hall initState_inv.2)
  · intro ops rid hany
    obtain ⟨hinv, _⟩ := applyOps_preserves ops initState initState_inv.1
    exact covered_count_one hinv.2.2.2.1 hinv.2.2.2.2 hany

/-- Witness for `c1_amended`: an upsert followed by a deactivation of
the same `(collection, path)` satisfies the synchronization
invariant. -/
theorem c1_amended_witness :
    ftsSyncedProp (applyOps initState
      [StoreOp.upsert "c".toList "p".toList none "h".toList "md".toList "b".toList,
       StoreOp.deactivate "c".toList "p".toList]) :=
  c1_amended.1 _ (by decide)

end QFS
